import Mathlib

/-!
A verification development for the trustquery-browser core: the trigger
scanner (`CommandScanner`), the line renderer (`OverlayRenderer`), the
dropdown selection commit (`DropdownManager.handleDropdownSelect`, both the
replace and the append variants), and the validation aggregator
(`ValidationStateManager.update`).

Modeling conventions:
* JS strings are modeled as `List Char`; the scanned inputs of interest are
  ASCII, and `toLowerCase` is modeled by the ASCII case fold (a per-character,
  length-preserving map).
* The JS `RegExp` engine is external to the scanner; it is modeled as an
  abstract function from a pattern and a line to an optional list of
  `(index, matchedText)` pairs: `none` models a pattern whose compilation
  throws (the scanner catches that and keeps zero matches for the rule),
  `some res` models the list produced by the `while ((m = regex.exec(line)))`
  loop.  `EngineWF` records the facts true of every terminating `exec` loop:
  `m[0]` is the substring of the line at `m.index`, it lies in bounds, and it
  is non-empty (a zero-width global match never lets the loop terminate).
* The string-search loop of `findMatches` advances `startIndex` by at least
  one per iteration whenever the literal pattern is non-empty, so it makes at
  most `line.length + 2` iterations; the embedding runs it on exactly that
  much fuel.  (For an empty literal pattern the JS loop does not terminate;
  theorems that need per-match facts therefore assume non-empty literal
  patterns, which is the domain where the source returns at all.)
* JS `Array.prototype.sort` with a numeric comparator is a stable sort; a
  stable sort is uniquely determined by the key order, so it is modeled by a
  stable insertion sort.
-/

namespace TrustQuery

/-- View a Lean string literal as the char-list model of a JS string. -/
def chars (s : String) : List Char := s.data

/-- `CommandScanner.isWordChar`: the test `/[a-zA-Z0-9_]/.test(char)`. -/
def isWordChar (c : Char) : Bool :=
  (decide ('a' ≤ c) && decide (c ≤ 'z')) ||
  (decide ('A' ≤ c) && decide (c ≤ 'Z')) ||
  (decide ('0' ≤ c) && decide (c ≤ '9')) ||
  c == '_'

/-- ASCII case folding for a single character (the fragment of
`String.prototype.toLowerCase` exercised by the trigger data). -/
def toLowerChar (c : Char) : Char :=
  if decide ('A' ≤ c) && decide (c ≤ 'Z') then Char.ofNat (c.toNat + 32) else c

/-- `line.toLowerCase()` on the char-list model: a length-preserving map. -/
def toLowerCaseJs (s : List Char) : List Char := s.map toLowerChar

/-- JS `String.prototype.indexOf(pat, start)`: the least position `i ≥ start`
where `pat` occurs, `none` for `-1`; for an empty `pat` JS returns
`min start line.length`. -/
def jsIndexOf (line pat : List Char) (start : Nat) : Option Nat :=
  if pat.isEmpty then some (min start line.length)
  else
    (List.range (line.length + 1)).find?
      (fun i => decide (start ≤ i) && ((line.drop i).take pat.length == pat))

/-- JS `String.prototype.substring(a, b)`: both endpoints are clamped to the
string length and swapped when out of order. -/
def jsSubstring (s : List Char) (a b : Nat) : List Char :=
  let a' := min a s.length
  let b' := min b s.length
  (s.drop (min a' b')).take (max a' b' - min a' b')

/-- `text.split('\n')`; `"".split('\n')` is `[""]`. -/
def splitLines : List Char → List (List Char)
  | [] => [[]]
  | c :: rest =>
    if c = '\n' then [] :: splitLines rest
    else
      match splitLines rest with
      | [] => [[c]]
      | l :: ls => (c :: l) :: ls

/-- `lines.join('\n')`. -/
def joinLines : List (List Char) → List Char
  | [] => []
  | [l] => l
  | l :: ls => l ++ '\n' :: joinLines ls

/-- `command.matchType`: `'regex'` or `'string'`. -/
inductive MatchType where
  | regex
  | string
deriving DecidableEq

/-- A compiled command, as produced by `CommandScanner.parseCommandMap`.
The fields are the ones the scanner reads (`match`, `matchType`,
`caseSensitive`, `wholeWord`) plus the severity bucket the command came from;
`match` is a Lean keyword, so the field is named `matchStr`.  The purely
presentational fields (`id`, `category`, `intent`, `handler`) are not read by
the scanning path and are omitted. -/
structure Command where
  matchStr : List Char
  matchType : MatchType
  caseSensitive : Bool
  wholeWord : Bool
  messageState : String
deriving DecidableEq

/-- A match object as pushed by `CommandScanner.findMatches`:
`{text, line, col, length, command}`. -/
structure Match where
  text : List Char
  line : Nat
  col : Nat
  length : Nat
  command : Command
deriving DecidableEq

/-- The external `RegExp` engine: pattern and line to an optional list of
`(index, matchedText)` pairs.  `none` models `new RegExp(pattern)` throwing
(the `catch` branch of `findMatches`); `some res` models the results of the
global `exec` loop. -/
abbrev RegexEngine : Type := List Char → List Char → Option (List (Nat × List Char))

/-- Facts true of every terminating JS global-`exec` loop: each produced pair
records the actual substring of the line at its index, lies in bounds, and is
non-empty. -/
def EngineWF (engine : RegexEngine) : Prop :=
  ∀ pat line res, engine pat line = some res → ∀ p ∈ res,
    p.1 + p.2.length ≤ line.length ∧ p.2 = (line.drop p.1).take p.2.length ∧ p.2 ≠ []

/-- `CommandScanner.isWholeWordMatch(text, start, length)`: the character
before the span must not be a word character, and the character after the
span must be neither a word character nor `'/'`. -/
def isWholeWordMatch (text : List Char) (start length : Nat) : Bool :=
  let e := start + length
  if decide (0 < start) && isWordChar (text.getD (start - 1) ' ') then false
  else if decide (e < text.length) &&
      (isWordChar (text.getD e ' ') || text.getD e ' ' == '/') then false
  else true

/-- The string-pattern loop of `CommandScanner.findMatches`, with explicit
fuel (see the module comment): search `searchText` from `startIndex`, retry
from `index + 1` on a whole-word failure, and otherwise record the match —
taking its `text` from the original `line` — and continue from
`index + pattern.length`. -/
def findStringMatches (line searchText pattern : List Char) (wholeWord : Bool)
    (command : Command) (lineIndex : Nat) : Nat → Nat → List Match
  | 0, _ => []
  | fuel + 1, startIndex =>
    match jsIndexOf searchText pattern startIndex with
    | none => []
    | some index =>
      if wholeWord && !isWholeWordMatch line index pattern.length then
        findStringMatches line searchText pattern wholeWord command lineIndex fuel (index + 1)
      else
        { text := (line.drop index).take pattern.length, line := lineIndex, col := index,
          length := pattern.length, command := command }
          :: findStringMatches line searchText pattern wholeWord command lineIndex fuel
              (index + pattern.length)

/-- `CommandScanner.findMatches(line, command, lineIndex)`. -/
def findMatches (engine : RegexEngine) (line : List Char) (command : Command)
    (lineIndex : Nat) : List Match :=
  match command.matchType with
  | MatchType.regex =>
    match engine command.matchStr line with
    | none => []
    | some ms =>
      ms.map (fun p =>
        { text := p.2, line := lineIndex, col := p.1, length := p.2.length,
          command := command })
  | MatchType.string =>
    let searchText := if command.caseSensitive then line else toLowerCaseJs line
    let pattern := if command.caseSensitive then command.matchStr
                   else toLowerCaseJs command.matchStr
    findStringMatches line searchText pattern command.wholeWord command lineIndex
      (line.length + 2) 0

/-- `CommandScanner.overlapsExisting(match, existingRanges)`. -/
def overlapsExisting (m : Match) (ranges : List (Nat × Nat)) : Bool :=
  ranges.any (fun r => decide (m.col < r.2) && decide (m.col + m.length > r.1))

/-- The per-command filtering loop of `CommandScanner.scanLine`: each
candidate overlapping an already accepted range is discarded, otherwise it is
appended to `matches` and its range to `matchedRanges`. -/
def filterOverlaps : List Match → List Match → List (Nat × Nat) →
    List Match × List (Nat × Nat)
  | [], acc, ranges => (acc, ranges)
  | m :: rest, acc, ranges =>
    if overlapsExisting m ranges then filterOverlaps rest acc ranges
    else filterOverlaps rest (acc ++ [m]) (ranges ++ [(m.col, m.col + m.length)])

/-- The command loop of `CommandScanner.scanLine`. -/
def scanLineCore (engine : RegexEngine) (line : List Char) (lineIndex : Nat) :
    List Command → List Match → List (Nat × Nat) → List Match
  | [], acc, _ => acc
  | c :: cmds, acc, ranges =>
    let r := filterOverlaps (findMatches engine line c lineIndex) acc ranges
    scanLineCore engine line lineIndex cmds r.1 r.2

/-- Stable insertion: `a` is placed before the first element `b` with
`le a b`. -/
def insertSorted {α : Type} (le : α → α → Bool) (a : α) : List α → List α
  | [] => [a]
  | b :: l => if le a b then a :: b :: l else b :: insertSorted le a l

/-- A stable sort; JS `Array.prototype.sort` with a numeric comparator is
stable, and a stable sort is uniquely determined by the key order. -/
def sortStable {α : Type} (le : α → α → Bool) (l : List α) : List α :=
  l.foldr (insertSorted le) []

/-- The comparator `(a, b) => a.col - b.col` of `scanLine` (and of
`OverlayRenderer.renderLine`). -/
def leCol (a b : Match) : Bool := decide (a.col ≤ b.col)

/-- `CommandScanner.scanLine(line, lineIndex)` for a given command list. -/
def scanLine (engine : RegexEngine) (cmds : List Command) (line : List Char)
    (lineIndex : Nat) : List Match :=
  sortStable leCol (scanLineCore engine line lineIndex cmds [] [])

/-- The `lines.forEach` loop of `CommandScanner.scan`. -/
def scanLines (engine : RegexEngine) (cmds : List Command) :
    Nat → List (List Char) → List Match
  | _, [] => []
  | i, line :: rest => scanLine engine cmds line i ++ scanLines engine cmds (i + 1) rest

/-- `CommandScanner.scan(text)` for a given command list. -/
def scan (engine : RegexEngine) (cmds : List Command) (text : List Char) : List Match :=
  if cmds.isEmpty then [] else scanLines engine cmds 0 (splitLines text)

/-- One entry of a severity bucket of the trigger map, with the fields read
by `parseCommandMap` (`type`, `match`, `regex`; `match` is a Lean keyword, so
the fields are `matchList` and `regexList`; a missing array is `none`). -/
structure Trigger where
  type : String
  matchList : Option (List (List Char))
  regexList : Option (List (List Char))
deriving DecidableEq

/-- The comparator `(a, b) => b.match.length - a.match.length` of
`parseCommandMap`: descending pattern length. -/
def lenDescCmd (a b : Command) : Bool := decide (b.matchStr.length ≤ a.matchStr.length)

/-- `CommandScanner.parseCommandMap`, over the ordered key/value list of the
trigger map (JS object keys enumerate in insertion order; keys starting with
`$` are skipped, and non-array bucket values are skipped — the model carries
arrays only).  Regex entries compile case-sensitive and not whole-word;
string entries compile case-insensitive and whole-word.  The result is
sorted by descending pattern length with the stable JS sort. -/
def parseCommandMapRaw (triggers : List (String × List Trigger)) : List Command :=
  triggers.foldl (fun acc kv =>
    if kv.1.startsWith "$" then acc
    else
      acc ++ kv.2.foldl (fun acc2 trigger =>
        acc2 ++
        (if trigger.type == "regex" then
          (trigger.regexList.getD []).map (fun pattern =>
            { matchStr := pattern, matchType := MatchType.regex,
              caseSensitive := true, wholeWord := false, messageState := kv.1 })
         else []) ++
        (if trigger.type == "match" then
          (trigger.matchList.getD []).map (fun s =>
            { matchStr := s, matchType := MatchType.string,
              caseSensitive := false, wholeWord := true, messageState := kv.1 })
         else [])) []) []

def parseCommandMap (triggers : List (String × List Trigger)) : List Command :=
  sortStable lenDescCmd (parseCommandMapRaw triggers)

/-- The scanner instance: its mutable fields (`commandMap`, `commands`,
`debug`). -/
structure CommandScanner where
  commandMap : Option (List (String × List Trigger))
  commands : List Command
  debug : Bool

/-- `CommandScanner.setCommandMap`. -/
def CommandScanner.setCommandMap (self : CommandScanner)
    (m : List (String × List Trigger)) : CommandScanner :=
  { self with commandMap := some m, commands := parseCommandMap m }

/-- The `scan` method with the instance state threaded explicitly: the method
only reads `this.commands`, so the state comes back unchanged. -/
def CommandScanner.scan (engine : RegexEngine) (self : CommandScanner)
    (text : List Char) : List Match × CommandScanner :=
  (TrustQuery.scan engine self.commands text, self)

/-- A fixed regex engine for concrete evaluations: it rejects every pattern
(only string commands are exercised through it). -/
def noRegexEngine : RegexEngine := fun _ _ => none

/-- The literal whole-word rule `"test"`, as compiled by `parseCommandMap`
from `{type: "match", match: ["test"]}` in the `error` bucket. -/
def cmdTest : Command :=
  { matchStr := chars "test", matchType := MatchType.string,
    caseSensitive := false, wholeWord := true, messageState := "error" }

/-- A rendered segment of a line, as emitted by `OverlayRenderer.renderLine`:
a plain run, an annotated run (the styled `<span>` for a match), or the
renderer's empty-line placeholder (`&nbsp;`).  Segments carry the raw text;
`escapeHtml` is an injective presentation-layer encoding undone by the DOM. -/
inductive Segment where
  | plain (text : List Char)
  | annotated (text : List Char) (m : Match)
  | placeholder
deriving DecidableEq

/-- The text content a segment contributes to its line (the placeholder
stands for the empty line). -/
def Segment.text : Segment → List Char
  | Segment.plain t => t
  | Segment.annotated t _ => t
  | Segment.placeholder => []

/-- `OverlayRenderer.getMatchesForLine(line, lineIndex, matches)`: the
matches whose `line` equals `lineIndex` (their `start`/`end` view is
`col`/`col + length`, used directly below). -/
def getMatchesForLine (lineIndex : Nat) (ms : List Match) : List Match :=
  ms.filter (fun m => m.line == lineIndex)

/-- The segment-emitting loop of `OverlayRenderer.renderLine`: a plain gap
when `match.start > lastIndex`, the annotated span for
`[match.start, match.end)`, and after the loop a trailing plain run when
`lastIndex < line.length`. -/
def renderSegs (line : List Char) : Nat → List Match → List Segment
  | lastIndex, [] =>
    if lastIndex < line.length then [Segment.plain (line.drop lastIndex)] else []
  | lastIndex, m :: rest =>
    (if lastIndex < m.col then [Segment.plain (jsSubstring line lastIndex m.col)] else [])
      ++ Segment.annotated (jsSubstring line m.col (m.col + m.length)) m
        :: renderSegs line (m.col + m.length) rest

/-- `OverlayRenderer.renderLine(line, lineIndex, matches)`, as the sequence
of emitted segments: with no matches on the line the whole line is one plain
run (`escapeHtml(line) || '&nbsp;'` turns an empty line into the
placeholder); with matches, the sorted matches drive the loop and an empty
line still appends the placeholder at the end. -/
def renderLine (line : List Char) (lineIndex : Nat) (ms : List Match) :
    List Segment :=
  let lineMatches := sortStable leCol (getMatchesForLine lineIndex ms)
  if lineMatches.isEmpty then
    [if line.isEmpty then Segment.placeholder else Segment.plain line]
  else
    renderSegs line 0 lineMatches ++ (if line.isEmpty then [Segment.placeholder] else [])

/-- The match data consumed by `DropdownManager.handleDropdownSelect`:
`{line, col, text}` of the originating match. -/
structure MatchData where
  line : Nat
  col : Nat
  text : List Char
deriving DecidableEq

/-- The *replace* variant of `DropdownManager.handleDropdownSelect`
(TrustQuery.js, first `DropdownManager`): when the selected option carries a
truthy `on-select.display`, the line of the match is rewritten as
`before + displayText + after` around the span
`[col, col + matchData.text.length)` and an `input` event is dispatched (the
boolean of the result) to re-render and rescan; a missing or empty line, or
a missing/empty display text, leaves the text untouched. -/
def handleDropdownSelectReplace (display : Option (List Char)) (matchData : MatchData)
    (text : List Char) : List Char × Bool :=
  match display with
  | none => (text, false)
  | some d =>
    if d.isEmpty then (text, false)
    else
      let lines := splitLines text
      match lines.get? matchData.line with
      | none => (text, false)
      | some line =>
        if line.isEmpty then (text, false)
        else
          let before := jsSubstring line 0 matchData.col
          let after := line.drop (matchData.col + matchData.text.length)
          (joinLines (lines.set matchData.line (before ++ d ++ after)), true)

/-- The *append* variant of `DropdownManager.handleDropdownSelect`
(TrustQuery.js, second `DropdownManager`): the span is replaced by
`matchData.text + '/' + displayText` instead. -/
def handleDropdownSelectAppend (display : Option (List Char)) (matchData : MatchData)
    (text : List Char) : List Char × Bool :=
  match display with
  | none => (text, false)
  | some d =>
    if d.isEmpty then (text, false)
    else
      let lines := splitLines text
      match lines.get? matchData.line with
      | none => (text, false)
      | some line =>
        if line.isEmpty then (text, false)
        else
          let before := jsSubstring line 0 matchData.col
          let after := line.drop (matchData.col + matchData.text.length)
          let newText := matchData.text ++ '/' :: d
          (joinLines (lines.set matchData.line (before ++ newText ++ after)), true)

/-- A match as seen by `ValidationStateManager.update`: the two handler
fields the method reads (`match.intent?.handler?.['message-state']`, which
may be absent, and `match.intent?.handler?.['block-submit'] === true`), plus
the identity fields (`text`, `line`, `col`) that distinguish one match
object from another. -/
structure VMatch where
  text : String
  line : Nat
  col : Nat
  messageState : Option String
  blockSubmit : Bool
deriving DecidableEq

/-- The state of `ValidationStateManager`. -/
structure VState where
  hasBlockingError : Bool
  errors : List VMatch
  warnings : List VMatch
  info : List VMatch
deriving DecidableEq

/-- The `matches.forEach` categorization loop of
`ValidationStateManager.update`: starting from the reset state, a match with
`block-submit === true` sets `hasBlockingError`, and the `switch` on
`message-state` pushes the match into exactly the bucket named `error`,
`warning` or `info` (any other value falls through every case). -/
def categorizeStep (st : VState) (m : VMatch) : VState :=
  let st := if m.blockSubmit then { st with hasBlockingError := true } else st
  match m.messageState with
  | some s =>
    if s = "error" then { st with errors := st.errors ++ [m] }
    else if s = "warning" then { st with warnings := st.warnings ++ [m] }
    else if s = "info" then { st with info := st.info ++ [m] }
    else st
  | none => st

def categorizeMatches (ms : List VMatch) : VState :=
  ms.foldl categorizeStep ⟨false, [], [], []⟩

/-- `ValidationStateManager.update(matches)` with the instance state threaded
explicitly: the boolean of the result is `stateChanged`, which is exactly
when the stored state is replaced and the `onValidationChange` callback is
invoked. -/
def ValidationStateManager.update (state : VState) (ms : List VMatch) :
    VState × Bool :=
  let newState := categorizeMatches ms
  let stateChanged :=
    state.hasBlockingError != newState.hasBlockingError ||
    state.errors.length != newState.errors.length ||
    state.warnings.length != newState.warnings.length ||
    state.info.length != newState.info.length
  (if stateChanged then newState else state, stateChanged)

/-- A regex rule whose pattern `"[a-"` makes `new RegExp` throw. -/
def cmdBadRegex : Command :=
  { matchStr := chars "[a-", matchType := MatchType.regex,
    caseSensitive := true, wholeWord := false, messageState := "error" }

/-- The literal whole-word rule `"ab cd"` (a longer pattern, sorting first).
-/
def cmdAbCd : Command :=
  { matchStr := chars "ab cd", matchType := MatchType.string,
    caseSensitive := false, wholeWord := true, messageState := "error" }

/-- The literal whole-word rule `"ab"` (a shorter pattern, sorting second).
-/
def cmdAb : Command :=
  { matchStr := chars "ab", matchType := MatchType.string,
    caseSensitive := false, wholeWord := true, messageState := "warning" }

/-- Claim C2 (counterexample): as stated, the claim asserts that the literal
whole-word rule `"test"` matches the line `"test/ok"` because `/` would be a
valid right boundary.  The code does the opposite: `isWholeWordMatch` returns
`false` when the character after the span is `'/'`, so the scan of
`"test/ok"` yields no match at all. -/
theorem claim_C2_counterexample :
    scan noRegexEngine [cmdTest] (chars "test/ok") = [] := by decide

/-- Claim C2 (amended): a `/` immediately after the candidate span is treated
like a word character and blocks the whole-word match, so literal rule
`"test"` yields no match against `"test/ok"`, no match against `"testing"`,
and exactly one match (columns 2–6, original text) against `"a test"`. -/
theorem claim_C2_amended :
    isWholeWordMatch (chars "test/ok") 0 4 = false
    ∧ scan noRegexEngine [cmdTest] (chars "test/ok") = []
    ∧ scan noRegexEngine [cmdTest] (chars "testing") = []
    ∧ (scan noRegexEngine [cmdTest] (chars "a test")).map
        (fun m => (m.line, m.col, m.length, m.text)) = [(0, 2, 4, chars "test")] := by
  refine ⟨by decide, by decide, by decide, by decide⟩

lemma categorizeMatches_go (ms : List VMatch) : ∀ st : VState,
    ms.foldl categorizeStep st =
      { hasBlockingError := st.hasBlockingError || ms.any (fun m => m.blockSubmit),
        errors := st.errors ++ ms.filter (fun m => decide (m.messageState = some "error")),
        warnings := st.warnings ++ ms.filter (fun m => decide (m.messageState = some "warning")),
        info := st.info ++ ms.filter (fun m => decide (m.messageState = some "info")) } := by
  induction ms with
  | nil => intro st; simp
  | cons m rest ih =>
    intro st
    simp only [List.foldl_cons, List.any_cons, List.filter_cons, ih]
    rcases m with ⟨t, l, c, mstate, bs⟩
    rcases st with ⟨hbe, errs, warns, infos⟩
    cases mstate with
    | none => cases bs <;> simp [categorizeStep]
    | some s =>
      cases bs <;>
        simp only [categorizeStep, Option.some.injEq, decide_eq_true_eq] <;>
        by_cases h1 : s = "error" <;> by_cases h2 : s = "warning" <;>
        by_cases h3 : s = "info" <;>
        simp_all [Bool.true_or, List.append_assoc]

/-- Claim C10: in `ValidationStateManager.update`, the severity buckets are
exactly the matches whose `message-state` is literally `error`, `warning` or
`info` (any other value lands in no bucket), while `hasBlockingError` is set
by any match with `block-submit === true`, independently of bucket
membership; in particular a match with an unknown state and
`block-submit: true` blocks without appearing in any bucket. -/
theorem claim_C10 :
    (∀ ms : List VMatch,
      (categorizeMatches ms).hasBlockingError = ms.any (fun m => m.blockSubmit)
      ∧ (categorizeMatches ms).errors
          = ms.filter (fun m => decide (m.messageState = some "error"))
      ∧ (categorizeMatches ms).warnings
          = ms.filter (fun m => decide (m.messageState = some "warning"))
      ∧ (categorizeMatches ms).info
          = ms.filter (fun m => decide (m.messageState = some "info")))
    ∧ categorizeMatches [⟨"overdue", 0, 3, some "success", true⟩]
        = ⟨true, [], [], []⟩ := by
  constructor
  · intro ms
    simp [categorizeMatches, categorizeMatches_go ms ⟨false, [], [], []⟩]
  · decide

/-- Claim C6: `ValidationStateManager.update` reports a change (invokes the
host callback) exactly when one of the four tracked quantities —
`hasBlockingError`, `errors.length`, `warnings.length`, `info.length` —
differs from the stored previous state, and keeps the stored state when
nothing changed; in particular two consecutive updates both yielding error
count 1 (with different match objects) do not re-invoke the callback, and a
1-to-0 change invokes it exactly once. -/
theorem claim_C6 :
    (∀ (st : VState) (ms : List VMatch),
      ((ValidationStateManager.update st ms).2 = true ↔
        ¬(st.hasBlockingError = (categorizeMatches ms).hasBlockingError
          ∧ st.errors.length = (categorizeMatches ms).errors.length
          ∧ st.warnings.length = (categorizeMatches ms).warnings.length
          ∧ st.info.length = (categorizeMatches ms).info.length))
      ∧ ((ValidationStateManager.update st ms).2 = false →
          (ValidationStateManager.update st ms).1 = st))
    ∧ ((ValidationStateManager.update ⟨false, [], [], []⟩
          [⟨"overdue", 0, 0, some "error", false⟩]).2 = true
      ∧ (ValidationStateManager.update
          (ValidationStateManager.update ⟨false, [], [], []⟩
            [⟨"overdue", 0, 0, some "error", false⟩]).1
          [⟨"overdue", 0, 7, some "error", false⟩]).2 = false
      ∧ (ValidationStateManager.update
          (ValidationStateManager.update ⟨false, [], [], []⟩
            [⟨"overdue", 0, 0, some "error", false⟩]).1
          [⟨"overdue", 0, 7, some "error", false⟩]).1
          = (ValidationStateManager.update ⟨false, [], [], []⟩
              [⟨"overdue", 0, 0, some "error", false⟩]).1
      ∧ (ValidationStateManager.update
          (ValidationStateManager.update ⟨false, [], [], []⟩
            [⟨"overdue", 0, 0, some "error", false⟩]).1 []).2 = true
      ∧ (ValidationStateManager.update
          (ValidationStateManager.update
            (ValidationStateManager.update ⟨false, [], [], []⟩
              [⟨"overdue", 0, 0, some "error", false⟩]).1 []).1 []).2 = false) := by
  constructor
  · intro st ms
    constructor
    · simp only [ValidationStateManager.update, Bool.or_eq_true, bne_iff_ne, ne_eq]
      tauto
    · intro h
      simp only [ValidationStateManager.update] at h ⊢
      simp [h]
  · refine ⟨by decide, by decide, by decide, by decide, by decide⟩

/-- Claim C6 witness: a concrete no-change update reports `false` and keeps
the stored state. -/
theorem claim_C6_witness :
    (ValidationStateManager.update ⟨false, [], [], []⟩ []).2 = false
    ∧ (ValidationStateManager.update ⟨false, [], [], []⟩ []).1 = ⟨false, [], [], []⟩ :=
  ⟨by decide, (claim_C6.1 ⟨false, [], [], []⟩ []).2 (by decide)⟩

/-- Claim C8: the `scan` method threads the scanner state back unchanged
(its body only reads `this.commands`), so two successive calls on the same
text return identical match lists, and the result depends on the instance
state only through the compiled command list. -/
theorem claim_C8 :
    ∀ (engine : RegexEngine) (st : CommandScanner) (text : List Char),
      (CommandScanner.scan engine st text).2 = st
      ∧ (CommandScanner.scan engine ((CommandScanner.scan engine st text).2) text).1
          = (CommandScanner.scan engine st text).1
      ∧ (∀ st' : CommandScanner, st'.commands = st.commands →
          (CommandScanner.scan engine st' text).1
            = (CommandScanner.scan engine st text).1) := by
  intro engine st text
  refine ⟨rfl, rfl, ?_⟩
  intro st' h
  simp [CommandScanner.scan, TrustQuery.scan, h]

/-- Claim C8 witness: two scanner states sharing the compiled command list
(but differing in the `debug` flag) produce the same match list. -/
theorem claim_C8_witness :
    (CommandScanner.scan noRegexEngine ⟨none, [cmdTest], true⟩ (chars "a test")).1
      = (CommandScanner.scan noRegexEngine ⟨none, [cmdTest], false⟩ (chars "a test")).1 :=
  (claim_C8 noRegexEngine ⟨none, [cmdTest], false⟩ (chars "a test")).2.2
    ⟨none, [cmdTest], true⟩ rfl

lemma jsSubstring_zero (s : List Char) (b : Nat) (hb : b ≤ s.length) :
    jsSubstring s 0 b = s.take b := by
  simp [jsSubstring, Nat.min_eq_left hb, Nat.zero_min, Nat.zero_max]

/-- Claim C5: committing a dropdown option with on-select replacement text
`d` for a match at `(line, col)` rewrites exactly the span
`[col, col + matchData.text.length)` of that line — to `d` under the replace
variant, to `matchData.text + '/' + d` under the append variant — leaves
every other line of the split unchanged, and dispatches the input event that
triggers a rescan; on Scenario B this yields `"ping Blackrock now"`
respectively `"ping @client/Blackrock now"`. -/
theorem claim_C5 :
    (∀ (d : List Char) (md : MatchData) (text line : List Char),
      d ≠ [] →
      (splitLines text).get? md.line = some line →
      line ≠ [] →
      md.col + md.text.length ≤ line.length →
      (handleDropdownSelectReplace (some d) md text
          = (joinLines ((splitLines text).set md.line
              (line.take md.col ++ d ++ line.drop (md.col + md.text.length))), true)
        ∧ handleDropdownSelectAppend (some d) md text
          = (joinLines ((splitLines text).set md.line
              (line.take md.col ++ (md.text ++ '/' :: d)
                ++ line.drop (md.col + md.text.length))), true)
        ∧ (∀ (j : Nat) (l' : List Char), j ≠ md.line →
            ((splitLines text).set md.line l').get? j = (splitLines text).get? j)))
    ∧ (handleDropdownSelectReplace (some (chars "Blackrock")) ⟨0, 5, chars "@client"⟩
          (chars "ping @client now") = (chars "ping Blackrock now", true)
      ∧ handleDropdownSelectAppend (some (chars "Blackrock")) ⟨0, 5, chars "@client"⟩
          (chars "ping @client now") = (chars "ping @client/Blackrock now", true)) := by
  constructor
  · intro d md text line hd hline hne hspan
    have hcol : md.col ≤ line.length := le_trans (Nat.le_add_right _ _) hspan
    have hsub := jsSubstring_zero line md.col hcol
    rw [List.get?_eq_getElem?] at hline
    refine ⟨?_, ?_, ?_⟩
    · simp [handleDropdownSelectReplace, hline, hd, hne, hsub,
        List.isEmpty_iff, List.append_assoc]
    · simp [handleDropdownSelectAppend, hline, hd, hne, hsub,
        List.isEmpty_iff, List.append_assoc]
    · intro j l' hj
      simp [List.get?_eq_getElem?, List.getElem?_set_ne (Ne.symm hj)]
  · exact ⟨by decide, by decide⟩

lemma insertSorted_perm {α : Type} (le : α → α → Bool) (a : α) :
    ∀ l : List α, List.Perm (insertSorted le a l) (a :: l)
  | [] => List.Perm.refl _
  | b :: l => by
    simp only [insertSorted]
    split
    · exact List.Perm.refl _
    · exact ((insertSorted_perm le a l).cons b).trans (List.Perm.swap a b l)

lemma sortStable_perm {α : Type} (le : α → α → Bool) (l : List α) :
    List.Perm (sortStable le l) l := by
  induction l with
  | nil => exact List.Perm.refl _
  | cons a l ih =>
    exact (insertSorted_perm le a (sortStable le l)).trans (ih.cons a)

lemma insertSorted_pairwise {α : Type} (le : α → α → Bool)
    (htot : ∀ x y, le x y = false → le y x = true)
    (htrans : ∀ x y z, le x y = true → le y z = true → le x z = true) (a : α)
    (l : List α) (h : List.Pairwise (fun x y => le x y = true) l) :
    List.Pairwise (fun x y => le x y = true) (insertSorted le a l) := by
  induction l with
  | nil => simp [insertSorted]
  | cons b l ih =>
    rcases List.pairwise_cons.mp h with ⟨hb, hl⟩
    simp only [insertSorted]
    by_cases hab : le a b = true
    · rw [if_pos hab]
      refine List.pairwise_cons.mpr ⟨?_, h⟩
      intro x hx
      rcases List.mem_cons.mp hx with hxb | hx
      · rw [hxb]; exact hab
      · exact htrans a b x hab (hb x hx)
    · rw [if_neg hab]
      have hab' : le a b = false := by
        revert hab; cases le a b <;> simp
      refine List.pairwise_cons.mpr ⟨?_, ih hl⟩
      intro x hx
      rcases List.mem_cons.mp ((insertSorted_perm le a l).mem_iff.mp hx) with hxa | hx'
      · rw [hxa]; exact htot a b hab'
      · exact hb x hx'

lemma sortStable_pairwise {α : Type} (le : α → α → Bool)
    (htot : ∀ x y, le x y = false → le y x = true)
    (htrans : ∀ x y z, le x y = true → le y z = true → le x z = true)
    (l : List α) :
    List.Pairwise (fun x y => le x y = true) (sortStable le l) := by
  induction l with
  | nil => simp [sortStable]
  | cons a l ih => exact insertSorted_pairwise le htot htrans a _ ih

lemma pairwise_conj {α : Type} {R S : α → α → Prop} :
    ∀ {l : List α}, List.Pairwise R l → List.Pairwise S l →
      List.Pairwise (fun a b => R a b ∧ S a b) l
  | [], _, _ => List.Pairwise.nil
  | _ :: _, List.Pairwise.cons hR hRl, List.Pairwise.cons hS hSl =>
    List.Pairwise.cons (fun x hx => ⟨hR x hx, hS x hx⟩) (pairwise_conj hRl hSl)

lemma overlapsExisting_append (m : Match) (r1 r2 : List (Nat × Nat)) :
    overlapsExisting m (r1 ++ r2) = (overlapsExisting m r1 || overlapsExisting m r2) := by
  simp [overlapsExisting, List.any_append]

lemma overlapsExisting_false (m : Match) (ranges : List (Nat × Nat))
    (h : overlapsExisting m ranges = false) :
    ∀ r ∈ ranges, ¬(m.col < r.2 ∧ m.col + m.length > r.1) := by
  rw [overlapsExisting, List.any_eq_false] at h
  intro r hr
  have hthis := h r hr
  simp only [Bool.and_eq_true, decide_eq_true_eq, not_and] at hthis
  intro hcontra
  exact hthis hcontra.1 hcontra.2

lemma filterOverlaps_inv (cands : List Match) :
    ∀ (acc : List Match) (ranges : List (Nat × Nat)),
      ranges = acc.map (fun m => (m.col, m.col + m.length)) →
      List.Pairwise
        (fun a b => a.col + a.length ≤ b.col ∨ b.col + b.length ≤ a.col) acc →
      (filterOverlaps cands acc ranges).2
          = (filterOverlaps cands acc ranges).1.map (fun m => (m.col, m.col + m.length))
        ∧ List.Pairwise
            (fun a b => a.col + a.length ≤ b.col ∨ b.col + b.length ≤ a.col)
            (filterOverlaps cands acc ranges).1
        ∧ (∀ m ∈ (filterOverlaps cands acc ranges).1, m ∈ acc ∨ m ∈ cands)
        ∧ ∃ l, (filterOverlaps cands acc ranges).1 = acc ++ l := by
  induction cands with
  | nil =>
    intro acc ranges hsync hpw
    refine ⟨hsync, hpw, ?_, [], by simp [filterOverlaps]⟩
    intro m hm
    exact Or.inl (by simpa [filterOverlaps] using hm)
  | cons c rest ih =>
    intro acc ranges hsync hpw
    simp only [filterOverlaps]
    by_cases hov : overlapsExisting c ranges = true
    · rw [if_pos hov]
      rcases ih acc ranges hsync hpw with ⟨h1, h2, h3, h4⟩
      exact ⟨h1, h2, fun m hm => (h3 m hm).imp id (List.mem_cons_of_mem c), h4⟩
    · rw [if_neg hov]
      have hov' : overlapsExisting c ranges = false := by
        revert hov; cases overlapsExisting c ranges <;> simp
      have hdisj : ∀ a ∈ acc, a.col + a.length ≤ c.col ∨ c.col + c.length ≤ a.col := by
        intro a ha
        have hna := overlapsExisting_false c ranges hov' (a.col, a.col + a.length)
          (by rw [hsync]; exact List.mem_map.mpr ⟨a, ha, rfl⟩)
        omega
      have hsync' : ranges ++ [(c.col, c.col + c.length)]
          = (acc ++ [c]).map (fun m => (m.col, m.col + m.length)) := by
        simp [hsync]
      have hpw' : List.Pairwise
          (fun a b => a.col + a.length ≤ b.col ∨ b.col + b.length ≤ a.col)
          (acc ++ [c]) := by
        refine List.pairwise_append.mpr ⟨hpw, List.pairwise_singleton _ _, ?_⟩
        intro a ha b hb
        rw [List.mem_singleton.mp hb]
        exact hdisj a ha
      rcases ih (acc ++ [c]) (ranges ++ [(c.col, c.col + c.length)]) hsync' hpw'
        with ⟨h1, h2, h3, l, h4⟩
      refine ⟨h1, h2, ?_, [c] ++ l, by simpa using h4⟩
      intro m hm
      rcases h3 m hm with hm' | hm'
      · rcases List.mem_append.mp hm' with hm'' | hm''
        · exact Or.inl hm''
        · exact Or.inr (List.mem_cons.mpr (Or.inl (List.mem_singleton.mp hm'')))
      · exact Or.inr (List.mem_cons_of_mem c hm')

lemma filterOverlaps_not_mem (cands : List Match) :
    ∀ (acc : List Match) (ranges : List (Nat × Nat)) (m : Match),
      m ∉ acc → overlapsExisting m ranges = true →
      m ∉ (filterOverlaps cands acc ranges).1 := by
  induction cands with
  | nil =>
    intro acc ranges m hm _
    simpa [filterOverlaps] using hm
  | cons c rest ih =>
    intro acc ranges m hm hov
    simp only [filterOverlaps]
    by_cases hc : overlapsExisting c ranges = true
    · rw [if_pos hc]
      exact ih acc ranges m hm hov
    · rw [if_neg hc]
      refine ih (acc ++ [c]) (ranges ++ [(c.col, c.col + c.length)]) m ?_ ?_
      · intro hmem
        rcases List.mem_append.mp hmem with hmem' | hmem'
        · exact hm hmem'
        · rw [List.mem_singleton.mp hmem'] at hov
          exact hc hov
      · rw [overlapsExisting_append, hov]
        rfl

lemma filterOverlaps_all (cands : List Match) :
    ∀ (acc : List Match) (ranges : List (Nat × Nat)),
      (∀ m ∈ cands, overlapsExisting m ranges = false) →
      List.Pairwise (fun a b => a.col + a.length ≤ b.col) cands →
      filterOverlaps cands acc ranges
        = (acc ++ cands, ranges ++ cands.map (fun m => (m.col, m.col + m.length))) := by
  induction cands with
  | nil => intro acc ranges _ _; simp [filterOverlaps]
  | cons c rest ih =>
    intro acc ranges hno hpw
    rcases List.pairwise_cons.mp hpw with ⟨hc, hrest⟩
    simp only [filterOverlaps]
    rw [if_neg (by simp [hno c (List.mem_cons_self c rest)])]
    rw [ih (acc ++ [c]) (ranges ++ [(c.col, c.col + c.length)]) ?_ hrest]
    · simp
    · intro m hm
      rw [overlapsExisting_append, hno m (List.mem_cons_of_mem c hm)]
      simp only [Bool.false_or]
      rw [overlapsExisting]
      simp only [List.any_eq_false]
      intro r hr
      rw [List.mem_singleton.mp hr]
      have hcm := hc m hm
      simp only [Bool.and_eq_true, decide_eq_true_eq, not_and]
      omega

/-- Claim C5 witness: the replace-variant span rewrite at the Scenario B
input. -/
theorem claim_C5_witness :
    handleDropdownSelectReplace (some (chars "Blackrock")) ⟨0, 5, chars "@client"⟩
        (chars "ping @client now")
      = (joinLines ((splitLines (chars "ping @client now")).set 0
          ((chars "ping @client now").take 5 ++ chars "Blackrock"
            ++ (chars "ping @client now").drop 12)), true) :=
  (claim_C5.1 (chars "Blackrock") ⟨0, 5, chars "@client"⟩ (chars "ping @client now")
    (chars "ping @client now") (by decide) (by decide) (by decide) (by decide)).1

lemma toLowerCaseJs_length (s : List Char) : (toLowerCaseJs s).length = s.length := by
  simp [toLowerCaseJs]

lemma jsIndexOf_some (line pat : List Char) (s i : Nat)
    (h : jsIndexOf line pat s = some i) :
    i + pat.length ≤ line.length ∧ (line.drop i).take pat.length = pat ∧
      (pat ≠ [] → s ≤ i) := by
  rw [jsIndexOf] at h
  by_cases hp : pat.isEmpty = true
  · rw [if_pos hp] at h
    have hpe : pat = [] := List.isEmpty_iff.mp hp
    have hi : i = min s line.length := by
      injection h with h'
      exact h'.symm
    subst hpe
    refine ⟨by simp; omega, by simp, fun hc => absurd rfl hc⟩
  · rw [if_neg hp] at h
    have hfind := List.find?_some h
    have hmem := List.mem_of_find?_eq_some h
    have hi : i < line.length + 1 := List.mem_range.mp hmem
    simp only [Bool.and_eq_true, decide_eq_true_eq] at hfind
    rcases hfind with ⟨hsi, hbeq⟩
    have htake : (line.drop i).take pat.length = pat := eq_of_beq hbeq
    refine ⟨?_, htake, fun _ => hsi⟩
    have hlen : ((line.drop i).take pat.length).length = pat.length := by rw [htake]
    rw [List.length_take, List.length_drop] at hlen
    omega

lemma findStringMatches_mem (line searchText pattern : List Char) (ww : Bool)
    (c : Command) (li : Nat) :
    ∀ (fuel s : Nat) (m : Match),
      m ∈ findStringMatches line searchText pattern ww c li fuel s →
      m.command = c ∧ m.line = li ∧ m.length = pattern.length ∧
        m.col + pattern.length ≤ searchText.length ∧
        m.text = (line.drop m.col).take pattern.length ∧
        (pattern ≠ [] → s ≤ m.col) := by
  intro fuel
  induction fuel with
  | zero => intro s m hm; simp [findStringMatches] at hm
  | succ fuel ih =>
    intro s m hm
    cases hidx : jsIndexOf searchText pattern s with
    | none => simp only [findStringMatches, hidx] at hm; cases hm
    | some index =>
      simp only [findStringMatches, hidx] at hm
      rcases jsIndexOf_some searchText pattern s index hidx with ⟨hb, _, hsi⟩
      by_cases hw : (ww && !isWholeWordMatch line index pattern.length) = true
      · rw [if_pos hw] at hm
        rcases ih (index + 1) m hm with ⟨h1, h2, h3, h4, h5, h6⟩
        exact ⟨h1, h2, h3, h4, h5,
          fun hp => le_trans (hsi hp) (le_trans (Nat.le_succ index) (h6 hp))⟩
      · rw [if_neg hw] at hm
        rcases List.mem_cons.mp hm with hme | hmt
        · subst hme
          exact ⟨rfl, rfl, rfl, hb, rfl, fun hp => hsi hp⟩
        · rcases ih (index + pattern.length) m hmt with ⟨h1, h2, h3, h4, h5, h6⟩
          exact ⟨h1, h2, h3, h4, h5,
            fun hp => le_trans (hsi hp) (le_trans (Nat.le_add_right index pattern.length) (h6 hp))⟩

lemma findStringMatches_chain (line searchText pattern : List Char) (ww : Bool)
    (c : Command) (li : Nat) (hp : pattern ≠ []) :
    ∀ (fuel s : Nat),
      List.Pairwise (fun a b => a.col + a.length ≤ b.col)
        (findStringMatches line searchText pattern ww c li fuel s) := by
  intro fuel
  induction fuel with
  | zero => intro s; simp [findStringMatches]
  | succ fuel ih =>
    intro s
    cases hidx : jsIndexOf searchText pattern s with
    | none => simp [findStringMatches, hidx]
    | some index =>
      simp only [findStringMatches, hidx]
      by_cases hw : (ww && !isWholeWordMatch line index pattern.length) = true
      · rw [if_pos hw]; exact ih (index + 1)
      · rw [if_neg hw]
        refine List.pairwise_cons.mpr ⟨?_, ih (index + pattern.length)⟩
        intro b hb
        have h6 := (findStringMatches_mem line searchText pattern ww c li fuel
          (index + pattern.length) b hb).2.2.2.2.2 hp
        simpa using h6

lemma findMatches_line (engine : RegexEngine) (line : List Char) (c : Command) (i : Nat) :
    ∀ m ∈ findMatches engine line c i, m.command = c ∧ m.line = i := by
  intro m hm
  cases hmt : c.matchType with
  | regex =>
    simp only [findMatches, hmt] at hm
    cases he : engine c.matchStr line with
    | none => rw [he] at hm; cases hm
    | some ms =>
      rw [he] at hm
      rcases List.mem_map.mp hm with ⟨p, _, rfl⟩
      exact ⟨rfl, rfl⟩
  | string =>
    simp only [findMatches, hmt] at hm
    have h := findStringMatches_mem line _ _ c.wholeWord c i _ 0 m hm
    exact ⟨h.1, h.2.1⟩

lemma findMatches_mem (engine : RegexEngine) (hWF : EngineWF engine)
    (line : List Char) (c : Command) (i : Nat) :
    ∀ m ∈ findMatches engine line c i,
      m.command = c ∧ m.line = i ∧ m.col + m.length ≤ line.length ∧
        m.text = (line.drop m.col).take m.length ∧ m.length = m.text.length ∧
        (c.matchType = MatchType.string → m.length = c.matchStr.length) ∧
        (c.matchType = MatchType.regex → 1 ≤ m.length) ∧
        (c.matchStr ≠ [] → 1 ≤ m.length) := by
  intro m hm
  cases hmt : c.matchType with
  | regex =>
    simp only [findMatches, hmt] at hm
    cases he : engine c.matchStr line with
    | none => rw [he] at hm; cases hm
    | some ms =>
      rw [he] at hm
      rcases List.mem_map.mp hm with ⟨p, hp, rfl⟩
      rcases hWF c.matchStr line ms he p hp with ⟨hb, htxt, hne⟩
      refine ⟨rfl, rfl, hb, ?_, rfl, ?_, ?_, ?_⟩
      · simpa using htxt
      · intro h; cases h
      · intro _; exact List.length_pos.mpr hne
      · intro _; exact List.length_pos.mpr hne
  | string =>
    simp only [findMatches, hmt] at hm
    rcases findStringMatches_mem line _ _ c.wholeWord c i _ 0 m hm
      with ⟨h1, h2, h3, h4, h5, _⟩
    have hplen : (if c.caseSensitive = true then c.matchStr
        else toLowerCaseJs c.matchStr).length = c.matchStr.length := by
      by_cases hcs : c.caseSensitive = true <;> simp [hcs, toLowerCaseJs_length]
    have hslen : (if c.caseSensitive = true then line else toLowerCaseJs line).length
        = line.length := by
      by_cases hcs : c.caseSensitive = true <;> simp [hcs, toLowerCaseJs_length]
    rw [hslen] at h4
    rw [hplen] at h3
    refine ⟨h1, h2, by omega, by rw [h5, h3, hplen], ?_, fun _ => h3, ?_, ?_⟩
    · rw [h5, h3, hplen]
      rw [List.length_take, List.length_drop]
      omega
    · intro hre; cases hre
    · intro hne
      have := List.length_pos.mpr hne
      omega

lemma findMatches_chain (engine : RegexEngine) (line : List Char) (c : Command) (i : Nat)
    (hc : c.matchType = MatchType.string) (hp : c.matchStr ≠ []) :
    List.Pairwise (fun a b => a.col + a.length ≤ b.col) (findMatches engine line c i) := by
  simp only [findMatches, hc]
  apply findStringMatches_chain
  by_cases hcs : c.caseSensitive = true <;> simp [hcs, toLowerCaseJs, hp]

lemma scanLineCore_inv (engine : RegexEngine) (line : List Char) (li : Nat) :
    ∀ (cmds : List Command) (acc : List Match) (ranges : List (Nat × Nat)),
      ranges = acc.map (fun m => (m.col, m.col + m.length)) →
      List.Pairwise
        (fun a b => a.col + a.length ≤ b.col ∨ b.col + b.length ≤ a.col) acc →
      List.Pairwise
          (fun a b => a.col + a.length ≤ b.col ∨ b.col + b.length ≤ a.col)
          (scanLineCore engine line li cmds acc ranges)
        ∧ (∀ m ∈ scanLineCore engine line li cmds acc ranges,
            m ∈ acc ∨ ∃ c ∈ cmds, m ∈ findMatches engine line c li)
        ∧ ∃ l, scanLineCore engine line li cmds acc ranges = acc ++ l := by
  intro cmds
  induction cmds with
  | nil =>
    intro acc ranges _ hpw
    exact ⟨by simpa [scanLineCore] using hpw,
      fun m hm => Or.inl (by simpa [scanLineCore] using hm),
      ⟨[], by simp [scanLineCore]⟩⟩
  | cons c cmds ih =>
    intro acc ranges hsync hpw
    simp only [scanLineCore]
    rcases filterOverlaps_inv (findMatches engine line c li) acc ranges hsync hpw
      with ⟨f1, f2, f3, l1, f4⟩
    rcases ih (filterOverlaps (findMatches engine line c li) acc ranges).1
      (filterOverlaps (findMatches engine line c li) acc ranges).2 f1 f2
      with ⟨g1, g2, g3⟩
    refine ⟨g1, ?_, ?_⟩
    · intro m hm
      rcases g2 m hm with hm' | ⟨c', hc', hm'⟩
      · rcases f3 m hm' with h | h
        · exact Or.inl h
        · exact Or.inr ⟨c, List.mem_cons_self c cmds, h⟩
      · exact Or.inr ⟨c', List.mem_cons_of_mem c hc', hm'⟩
    · rcases g3 with ⟨l2, hl2⟩
      exact ⟨l1 ++ l2, by rw [hl2, f4, List.append_assoc]⟩

lemma scanLine_src (engine : RegexEngine) (cmds : List Command) (line : List Char)
    (li : Nat) :
    ∀ m ∈ scanLine engine cmds line li, ∃ c ∈ cmds, m ∈ findMatches engine line c li := by
  intro m hm
  have hm' := (sortStable_perm leCol (scanLineCore engine line li cmds [] [])).mem_iff.mp hm
  rcases (scanLineCore_inv engine line li cmds [] [] (by simp) List.Pairwise.nil).2.1 m hm'
    with h | h
  · cases h
  · exact h

lemma scanLine_line_eq (engine : RegexEngine) (cmds : List Command) (line : List Char)
    (li : Nat) :
    ∀ m ∈ scanLine engine cmds line li, m.line = li := by
  intro m hm
  rcases scanLine_src engine cmds line li m hm with ⟨c, _, hmc⟩
  exact (findMatches_line engine line c li m hmc).2

lemma leCol_total : ∀ x y : Match, leCol x y = false → leCol y x = true := by
  intro x y hf
  simp only [leCol, decide_eq_true_eq, decide_eq_false_iff_not, not_le] at hf ⊢
  omega

lemma leCol_trans : ∀ x y z : Match, leCol x y = true → leCol y z = true → leCol x z = true := by
  intro x y z h1 h2
  simp only [leCol, decide_eq_true_eq] at h1 h2 ⊢
  omega

lemma scanLine_pairwise (engine : RegexEngine) (cmds : List Command) (line : List Char)
    (li : Nat) :
    List.Pairwise (fun a b => a.col ≤ b.col ∧
        (a.col + a.length ≤ b.col ∨ b.col + b.length ≤ a.col))
      (scanLine engine cmds line li) := by
  have hdisj0 := (scanLineCore_inv engine line li cmds [] [] (by simp) List.Pairwise.nil).1
  have hperm := sortStable_perm leCol (scanLineCore engine line li cmds [] [])
  have hdisj := (hperm.pairwise_iff (fun h => Or.symm h)).mpr hdisj0
  have hsort := sortStable_pairwise leCol leCol_total leCol_trans
    (scanLineCore engine line li cmds [] [])
  have hsort' : List.Pairwise (fun a b : Match => a.col ≤ b.col)
      (sortStable leCol (scanLineCore engine line li cmds [] [])) :=
    hsort.imp (fun h => by simpa [leCol] using h)
  exact pairwise_conj hsort' hdisj

lemma scanLine_mem (engine : RegexEngine) (hWF : EngineWF engine) (cmds : List Command)
    (line : List Char) (li : Nat) :
    ∀ m ∈ scanLine engine cmds line li,
      m.command ∈ cmds ∧ m.line = li ∧ m.col + m.length ≤ line.length ∧
        m.text = (line.drop m.col).take m.length ∧ m.length = m.text.length ∧
        (m.command.matchType = MatchType.string → m.length = m.command.matchStr.length) ∧
        (m.command.matchType = MatchType.regex → 1 ≤ m.length) ∧
        (m.command.matchStr ≠ [] → 1 ≤ m.length) := by
  intro m hm
  rcases scanLine_src engine cmds line li m hm with ⟨c, hc, hmc⟩
  rcases findMatches_mem engine hWF line c li m hmc with ⟨h1, h2, h3, h4, h5, h6, h7, h8⟩
  subst h1
  exact ⟨hc, h2, h3, h4, h5, h6, h7, h8⟩

lemma scanLines_line_ge (engine : RegexEngine) (cmds : List Command) :
    ∀ (ls : List (List Char)) (k : Nat) (m : Match),
      m ∈ scanLines engine cmds k ls → k ≤ m.line := by
  intro ls
  induction ls with
  | nil => intro k m hm; simp [scanLines] at hm
  | cons line rest ih =>
    intro k m hm
    simp only [scanLines] at hm
    rcases List.mem_append.mp hm with h | h
    · rw [scanLine_line_eq engine cmds line k m h]
    · exact le_trans (Nat.le_succ k) (ih (k + 1) m h)

lemma scanLines_pairwise (engine : RegexEngine) (cmds : List Command) :
    ∀ (ls : List (List Char)) (k : Nat),
      List.Pairwise (fun a b => a.line = b.line →
          a.col ≤ b.col ∧ (a.col + a.length ≤ b.col ∨ b.col + b.length ≤ a.col))
        (scanLines engine cmds k ls) := by
  intro ls
  induction ls with
  | nil => intro k; simp [scanLines]
  | cons line rest ih =>
    intro k
    simp only [scanLines]
    refine List.pairwise_append.mpr ⟨?_, ih (k + 1), ?_⟩
    · exact (scanLine_pairwise engine cmds line k).imp
        (fun {a b} h => fun (_ : a.line = b.line) => h)
    · intro a ha b hb heq
      have h1 := scanLine_line_eq engine cmds line k a ha
      have h2 := scanLines_line_ge engine cmds rest (k + 1) b hb
      omega

lemma scanLines_mem (engine : RegexEngine) (hWF : EngineWF engine) (cmds : List Command) :
    ∀ (ls : List (List Char)) (k : Nat) (m : Match), m ∈ scanLines engine cmds k ls →
      ∃ j, j < ls.length ∧ m.line = k + j ∧ m.command ∈ cmds ∧
        m.col + m.length ≤ (ls.getD j []).length ∧
        m.text = ((ls.getD j []).drop m.col).take m.length ∧
        m.length = m.text.length ∧
        (m.command.matchType = MatchType.string → m.length = m.command.matchStr.length) ∧
        (m.command.matchType = MatchType.regex → 1 ≤ m.length) ∧
        (m.command.matchStr ≠ [] → 1 ≤ m.length) := by
  intro ls
  induction ls with
  | nil => intro k m hm; simp [scanLines] at hm
  | cons line rest ih =>
    intro k m hm
    simp only [scanLines] at hm
    rcases List.mem_append.mp hm with h | h
    · rcases scanLine_mem engine hWF cmds line k m h with ⟨h1, h2, h3, h4, h5, h6, h7, h8⟩
      exact ⟨0, by simp, by omega, h1, by simpa using h3, by simpa using h4, h5, h6, h7, h8⟩
    · rcases ih (k + 1) m h with ⟨j, hj, hline, hcmd, hb, ht, hl, h6, h7, h8⟩
      exact ⟨j + 1, by simpa using hj, by omega, hcmd, by simpa using hb,
        by simpa using ht, hl, h6, h7, h8⟩

/-- Claim C4: in every scan result, any two matches on the same line have
disjoint half-open column ranges `[startCol, endCol)`, and the matches of
each line appear in ascending order of start column. -/
theorem claim_C4 :
    ∀ (engine : RegexEngine) (cmds : List Command) (text : List Char),
      List.Pairwise (fun m1 m2 => m1.line = m2.line →
          m1.col ≤ m2.col ∧ (m1.col + m1.length ≤ m2.col ∨ m2.col + m2.length ≤ m1.col))
        (scan engine cmds text) := by
  intro engine cmds text
  rw [scan]
  by_cases h : cmds.isEmpty = true
  · rw [if_pos h]; exact List.Pairwise.nil
  · rw [if_neg h]; exact scanLines_pairwise engine cmds (splitLines text) 0

/-- Claim C9: every match produced by `scan` records as its `text` exactly
the substring `[col, col + length)` of the original (un-lowercased) scanned
line; its `length` equals the length of that text, and for a literal
(string) rule it equals the rule's pattern length. -/
theorem claim_C9 :
    ∀ (engine : RegexEngine), EngineWF engine →
    ∀ (cmds : List Command) (text : List Char) (m : Match),
      m ∈ scan engine cmds text →
      m.text = (((splitLines text).getD m.line []).drop m.col).take m.length
        ∧ m.length = m.text.length
        ∧ (m.command.matchType = MatchType.string →
            m.length = m.command.matchStr.length) := by
  intro engine hWF cmds text m hm
  rw [scan] at hm
  by_cases h : cmds.isEmpty = true
  · rw [if_pos h] at hm; cases hm
  · rw [if_neg h] at hm
    rcases scanLines_mem engine hWF cmds (splitLines text) 0 m hm
      with ⟨j, _, hline, _, _, ht, hl, h6, _, _⟩
    have hjm : j = m.line := by omega
    subst hjm
    exact ⟨ht, hl, h6⟩

/-- Claim C9 witness: the case-insensitive literal rule `"test"` on
`"a Test"` records the original-casing text `"Test"` of length 4. -/
theorem claim_C9_witness :
    chars "Test" = (((splitLines (chars "a Test")).getD 0 []).drop 2).take 4
      ∧ (4 : Nat) = (chars "Test").length
      ∧ (cmdTest.matchType = MatchType.string → (4 : Nat) = cmdTest.matchStr.length) :=
  claim_C9 noRegexEngine
    (fun _ _ _ h => absurd h (by simp [noRegexEngine]))
    [cmdTest] (chars "a Test") ⟨chars "Test", 0, 2, 4, cmdTest⟩ (by decide)

lemma findMatches_zero (engine : RegexEngine) (line : List Char) (c : Command) (li : Nat)
    (hc : c.matchType = MatchType.regex)
    (h : engine c.matchStr line = none ∨ engine c.matchStr line = some []) :
    findMatches engine line c li = [] := by
  rcases h with h | h <;> simp [findMatches, hc, h]

lemma scanLineCore_skip (engine : RegexEngine) (line : List Char) (li : Nat) (c : Command)
    (hzero : findMatches engine line c li = []) :
    ∀ (cmds1 cmds2 : List Command) (acc : List Match) (ranges : List (Nat × Nat)),
      scanLineCore engine line li (cmds1 ++ c :: cmds2) acc ranges
        = scanLineCore engine line li (cmds1 ++ cmds2) acc ranges := by
  intro cmds1
  induction cmds1 with
  | nil =>
    intro cmds2 acc ranges
    simp only [List.nil_append, scanLineCore, hzero, filterOverlaps]
  | cons c1 cmds1 ih =>
    intro cmds2 acc ranges
    simp only [List.cons_append, scanLineCore]
    exact ih cmds2 _ _

lemma scanLine_nil (engine : RegexEngine) (line : List Char) (li : Nat) :
    scanLine engine [] line li = [] := by
  simp [scanLine, scanLineCore, sortStable]

lemma scanLines_congr (engine : RegexEngine) (cmdsA cmdsB : List Command)
    (h : ∀ (line : List Char) (i : Nat),
      scanLine engine cmdsA line i = scanLine engine cmdsB line i) :
    ∀ (ls : List (List Char)) (k : Nat),
      scanLines engine cmdsA k ls = scanLines engine cmdsB k ls := by
  intro ls
  induction ls with
  | nil => intro k; simp [scanLines]
  | cons line rest ih =>
    intro k
    simp only [scanLines]
    rw [h line k, ih (k + 1)]

lemma scanLines_nil_cmds (engine : RegexEngine) :
    ∀ (ls : List (List Char)) (k : Nat), scanLines engine [] k ls = [] := by
  intro ls
  induction ls with
  | nil => intro k; simp [scanLines]
  | cons line rest ih =>
    intro k
    simp only [scanLines]
    rw [scanLine_nil, ih (k + 1)]
    rfl

/-- Claim C7: a scan never throws (the embedding is total), and a regex rule
whose pattern fails to compile — or never matches — contributes zero matches
while every other rule is still evaluated normally: removing such a rule
from the command list does not change the scan result. -/
theorem claim_C7 :
    ∀ (engine : RegexEngine) (cmds1 cmds2 : List Command) (c : Command)
      (text : List Char),
      c.matchType = MatchType.regex →
      (∀ line, engine c.matchStr line = none ∨ engine c.matchStr line = some []) →
      scan engine (cmds1 ++ c :: cmds2) text = scan engine (cmds1 ++ cmds2) text := by
  intro engine cmds1 cmds2 c text hc hinv
  have hline : ∀ (line : List Char) (i : Nat),
      scanLine engine (cmds1 ++ c :: cmds2) line i
        = scanLine engine (cmds1 ++ cmds2) line i := by
    intro line i
    rw [scanLine, scanLine,
      scanLineCore_skip engine line i c (findMatches_zero engine line c i hc (hinv line))]
  rw [scan, scan]
  have hne : ¬((cmds1 ++ c :: cmds2).isEmpty = true) := by cases cmds1 <;> simp
  rw [if_neg hne]
  by_cases h2 : (cmds1 ++ cmds2).isEmpty = true
  · rw [if_pos h2]
    have h12 : cmds1 = [] ∧ cmds2 = [] := by
      rcases List.append_eq_nil.mp (List.isEmpty_iff.mp h2) with ⟨ha, hb⟩
      exact ⟨ha, hb⟩
    rcases h12 with ⟨ha, hb⟩
    subst ha; subst hb
    rw [scanLines_congr engine ([] ++ c :: []) [] ?_ (splitLines text) 0]
    · exact scanLines_nil_cmds engine (splitLines text) 0
    · intro line i
      rw [List.nil_append, scanLine, scanLine_nil]
      simp [scanLineCore, findMatches_zero engine line c i hc (hinv line), filterOverlaps,
        sortStable]
  · rw [if_neg h2]
    exact scanLines_congr engine _ _ hline (splitLines text) 0

/-- Claim C7 witness: dropping a rejected regex rule from the rule list does
not change the scan of `"a test"`. -/
theorem claim_C7_witness :
    scan noRegexEngine ([] ++ cmdBadRegex :: [cmdTest]) (chars "a test")
      = scan noRegexEngine ([] ++ [cmdTest]) (chars "a test") :=
  claim_C7 noRegexEngine [] [cmdTest] cmdBadRegex (chars "a test") rfl
    (fun _ => Or.inl rfl)

/-- Claim C3: `parseCommandMap` sorts the compiled rules by descending
pattern length, and overlap resolution is first-accepted-wins under that
rule order: with two literal rules in compiled order, any candidate of the
second rule that overlaps a candidate of the first is discarded, so exactly
one of the two overlapping matches — the one of the rule sorting first — is
retained. -/
theorem claim_C3 :
    (∀ tm : List (String × List Trigger),
      List.Pairwise (fun a b => b.matchStr.length ≤ a.matchStr.length)
        (parseCommandMap tm))
    ∧ ∀ (engine : RegexEngine) (c1 c2 : Command) (line : List Char) (i : Nat)
        (m1 m2 : Match),
        c1.matchType = MatchType.string → c2.matchType = MatchType.string →
        c1.matchStr ≠ [] → c2.matchStr ≠ [] → c1 ≠ c2 →
        c2.matchStr.length ≤ c1.matchStr.length →
        m1 ∈ findMatches engine line c1 i → m2 ∈ findMatches engine line c2 i →
        m2.col < m1.col + m1.length → m1.col < m2.col + m2.length →
        m1 ∈ scanLine engine [c1, c2] line i ∧ m2 ∉ scanLine engine [c1, c2] line i := by
  constructor
  · intro tm
    rw [parseCommandMap]
    have h := sortStable_pairwise lenDescCmd
      (fun x y hf => by
        simp only [lenDescCmd, decide_eq_true_eq, decide_eq_false_iff_not, not_le] at hf ⊢
        omega)
      (fun x y z h1 h2 => by
        simp only [lenDescCmd, decide_eq_true_eq] at h1 h2 ⊢
        omega)
      (parseCommandMapRaw tm)
    exact h.imp (fun hxy => by simpa [lenDescCmd] using hxy)
  · intro engine c1 c2 line i m1 m2 hc1 hc2 hp1 hp2 hne _ hm1 hm2 hov1 hov2
    have hchain1 := findMatches_chain engine line c1 i hc1 hp1
    have hall := filterOverlaps_all (findMatches engine line c1 i) [] []
      (fun m _ => by simp [overlapsExisting]) hchain1
    have hcore : scanLineCore engine line i [c1, c2] [] []
        = (filterOverlaps (findMatches engine line c2 i) (findMatches engine line c1 i)
            ((findMatches engine line c1 i).map (fun m => (m.col, m.col + m.length)))).1 := by
      simp only [scanLineCore, hall, List.nil_append]
    have hsync : (findMatches engine line c1 i).map (fun m => (m.col, m.col + m.length))
        = (findMatches engine line c1 i).map (fun m => (m.col, m.col + m.length)) := rfl
    have hpw1 : List.Pairwise
        (fun a b => a.col + a.length ≤ b.col ∨ b.col + b.length ≤ a.col)
        (findMatches engine line c1 i) := hchain1.imp Or.inl
    rcases filterOverlaps_inv (findMatches engine line c2 i)
      (findMatches engine line c1 i)
      ((findMatches engine line c1 i).map (fun m => (m.col, m.col + m.length)))
      hsync hpw1 with ⟨_, _, _, l, hpre⟩
    constructor
    · apply (sortStable_perm leCol (scanLineCore engine line i [c1, c2] [] [])).mem_iff.mpr
      rw [hcore, hpre]
      exact List.mem_append.mpr (Or.inl hm1)
    · intro hmem
      have hmem' := (sortStable_perm leCol
        (scanLineCore engine line i [c1, c2] [] [])).mem_iff.mp hmem
      rw [hcore] at hmem'
      refine filterOverlaps_not_mem (findMatches engine line c2 i)
        (findMatches engine line c1 i)
        ((findMatches engine line c1 i).map (fun m => (m.col, m.col + m.length)))
        m2 ?_ ?_ hmem'
      · intro hmem1
        have he1 := (findMatches_line engine line c1 i m2 hmem1).1
        have he2 := (findMatches_line engine line c2 i m2 hm2).1
        exact hne (he1 ▸ he2 ▸ rfl)
      · apply List.any_eq_true.mpr
        refine ⟨(m1.col, m1.col + m1.length), List.mem_map.mpr ⟨m1, hm1, rfl⟩, ?_⟩
        simp only [Bool.and_eq_true, decide_eq_true_eq]
        omega

/-- Claim C3 witness: rules `"ab cd"` (length 5) and `"ab"` (length 2) on
the line `"ab cd"`: the overlapping candidates at column 0 resolve to the
longer rule's match. -/
theorem claim_C3_witness :
    (⟨chars "ab cd", 0, 0, 5, cmdAbCd⟩ : Match)
        ∈ scanLine noRegexEngine [cmdAbCd, cmdAb] (chars "ab cd") 0
      ∧ (⟨chars "ab", 0, 0, 2, cmdAb⟩ : Match)
        ∉ scanLine noRegexEngine [cmdAbCd, cmdAb] (chars "ab cd") 0 :=
  claim_C3.2 noRegexEngine cmdAbCd cmdAb (chars "ab cd") 0
    ⟨chars "ab cd", 0, 0, 5, cmdAbCd⟩ ⟨chars "ab", 0, 0, 2, cmdAb⟩
    rfl rfl (by decide) (by decide) (by decide) (by decide)
    (by decide) (by decide) (by decide) (by decide)

/-- Claim C4 witness: the invariant instantiated at a concrete scan. -/
theorem claim_C4_witness :
    List.Pairwise (fun m1 m2 => m1.line = m2.line →
        m1.col ≤ m2.col ∧ (m1.col + m1.length ≤ m2.col ∨ m2.col + m2.length ≤ m1.col))
      (scan noRegexEngine [cmdAbCd, cmdAb] (chars "ab cd ab")) :=
  claim_C4 noRegexEngine [cmdAbCd, cmdAb] (chars "ab cd ab")

/-- Claim C10 witness: the bucket characterization instantiated at a
concrete match list. -/
theorem claim_C10_witness :
    (categorizeMatches [⟨"overdue", 0, 3, some "success", true⟩]).hasBlockingError
        = ([⟨"overdue", 0, 3, some "success", true⟩] : List VMatch).any
            (fun m => m.blockSubmit)
      ∧ (categorizeMatches [⟨"overdue", 0, 3, some "success", true⟩]).errors
        = ([⟨"overdue", 0, 3, some "success", true⟩] : List VMatch).filter
            (fun m => decide (m.messageState = some "error"))
      ∧ (categorizeMatches [⟨"overdue", 0, 3, some "success", true⟩]).warnings
        = ([⟨"overdue", 0, 3, some "success", true⟩] : List VMatch).filter
            (fun m => decide (m.messageState = some "warning"))
      ∧ (categorizeMatches [⟨"overdue", 0, 3, some "success", true⟩]).info
        = ([⟨"overdue", 0, 3, some "success", true⟩] : List VMatch).filter
            (fun m => decide (m.messageState = some "info")) :=
  claim_C10.1 [⟨"overdue", 0, 3, some "success", true⟩]

lemma scan_pairwise (engine : RegexEngine) (cmds : List Command) (text : List Char) :
    List.Pairwise (fun m1 m2 => m1.line = m2.line →
        m1.col ≤ m2.col ∧ (m1.col + m1.length ≤ m2.col ∨ m2.col + m2.length ≤ m1.col))
      (scan engine cmds text) := by
  rw [scan]
  by_cases h : cmds.isEmpty = true
  · rw [if_pos h]; exact List.Pairwise.nil
  · rw [if_neg h]; exact scanLines_pairwise engine cmds (splitLines text) 0

lemma scan_mem (engine : RegexEngine) (hWF : EngineWF engine) (cmds : List Command)
    (text : List Char) :
    ∀ m ∈ scan engine cmds text,
      m.command ∈ cmds ∧
        m.col + m.length ≤ ((splitLines text).getD m.line []).length ∧
        m.text = (((splitLines text).getD m.line []).drop m.col).take m.length ∧
        m.length = m.text.length ∧
        (m.command.matchType = MatchType.string → m.length = m.command.matchStr.length) ∧
        (m.command.matchType = MatchType.regex → 1 ≤ m.length) ∧
        (m.command.matchStr ≠ [] → 1 ≤ m.length) := by
  intro m hm
  rw [scan] at hm
  by_cases h : cmds.isEmpty = true
  · rw [if_pos h] at hm; cases hm
  · rw [if_neg h] at hm
    rcases scanLines_mem engine hWF cmds (splitLines text) 0 m hm
      with ⟨j, _, hline, hcmd, hb, ht, hl, h6, h7, h8⟩
    have hjm : j = m.line := by omega
    subst hjm
    exact ⟨hcmd, hb, ht, hl, h6, h7, h8⟩

lemma jsSubstring_take_drop (s : List Char) (a b : Nat) (hab : a ≤ b)
    (hb : b ≤ s.length) :
    jsSubstring s a b = (s.drop a).take (b - a) := by
  have ha : a ≤ s.length := le_trans hab hb
  rw [jsSubstring]
  simp only [Nat.min_eq_left ha, Nat.min_eq_left hb, Nat.min_eq_left hab,
    Nat.max_eq_right hab]

lemma renderSegs_texts (line : List Char) :
    ∀ (ms : List Match) (k : Nat),
      k ≤ line.length →
      (∀ m ∈ ms, k ≤ m.col) →
      (∀ m ∈ ms, m.col + m.length ≤ line.length) →
      List.Pairwise (fun a b => a.col + a.length ≤ b.col) ms →
      ((renderSegs line k ms).map Segment.text).flatten = line.drop k := by
  intro ms
  induction ms with
  | nil =>
    intro k hk _ _ _
    by_cases h : k < line.length
    · rw [renderSegs, if_pos h]
      simp [Segment.text]
    · rw [renderSegs, if_neg h]
      have hd : line.drop k = [] := List.drop_eq_nil_of_le (by omega)
      simp [hd]
  | cons m rest ih =>
    intro k hk hfirst hb hpw
    rcases List.pairwise_cons.mp hpw with ⟨hm, hrest⟩
    have hkc : k ≤ m.col := hfirst m (List.mem_cons_self m rest)
    have hmb : m.col + m.length ≤ line.length := hb m (List.mem_cons_self m rest)
    have hrec := ih (m.col + m.length) hmb (fun m' hm' => hm m' hm')
      (fun m' hm' => hb m' (List.mem_cons_of_mem m hm')) hrest
    have hmt : jsSubstring line m.col (m.col + m.length) = (line.drop m.col).take m.length := by
      rw [jsSubstring_take_drop line m.col (m.col + m.length) (Nat.le_add_right _ _) hmb]
      simp
    have h1 : (line.drop m.col).take m.length ++ line.drop (m.col + m.length)
        = line.drop m.col := by
      have hdd : line.drop (m.col + m.length) = (line.drop m.col).drop m.length := by
        rw [List.drop_drop, Nat.add_comm]
      rw [hdd, List.take_append_drop]
    rw [renderSegs]
    by_cases hgap : k < m.col
    · rw [if_pos hgap]
      have hgt : jsSubstring line k m.col = (line.drop k).take (m.col - k) :=
        jsSubstring_take_drop line k m.col (le_of_lt hgap) (le_trans (Nat.le_add_right _ _) hmb)
      have h2 : line.drop m.col = (line.drop k).drop (m.col - k) := by
        rw [List.drop_drop]
        congr 1
        omega
      simp only [List.map_append, List.map_cons, List.map_nil, List.flatten_append,
        List.flatten_cons, List.flatten_nil, List.append_nil, List.nil_append,
        Segment.text, hgt, hmt, hrec, List.append_assoc]
      rw [h1, h2, List.take_append_drop]
    · rw [if_neg hgap]
      have hkm : k = m.col := by omega
      simp only [List.map_append, List.map_cons, List.map_nil, List.flatten_append,
        List.flatten_cons, List.flatten_nil, List.append_nil, List.nil_append,
        Segment.text, hmt, hrec]
      rw [h1, hkm]

/-- Claim C1 (round-trip law): for every text, every compiled command list
(in the domain where the source scan terminates: literal patterns non-empty,
and a well-formed regex engine) and every line, the segments emitted by
`renderLine` for the matches produced by `scan` concatenate — in emitted
order — to exactly that line of the text, and a completely empty line is
emitted as the renderer's empty-line placeholder. -/
theorem claim_C1 :
    ∀ (engine : RegexEngine), EngineWF engine →
    ∀ (cmds : List Command),
      (∀ c ∈ cmds, c.matchType = MatchType.string → c.matchStr ≠ []) →
    ∀ (text : List Char) (i : Nat), i < (splitLines text).length →
      ((renderLine ((splitLines text).getD i []) i (scan engine cmds text)).map
          Segment.text).flatten = (splitLines text).getD i []
      ∧ ((splitLines text).getD i [] = [] →
          renderLine ((splitLines text).getD i []) i (scan engine cmds text)
            = [Segment.placeholder]) := by
  intro engine hWF cmds hpat text i _
  generalize hLg : (splitLines text).getD i [] = L
  have hfacts : ∀ m ∈ (scan engine cmds text).filter (fun m => m.line == i),
      m.col + m.length ≤ L.length ∧ 1 ≤ m.length := by
    intro m hm
    rcases List.mem_filter.mp hm with ⟨hmM, hline⟩
    have hline' : m.line = i := by simpa using hline
    rcases scan_mem engine hWF cmds text m hmM with ⟨hcmd, hb, _, _, _, h7, h8⟩
    rw [hline', hLg] at hb
    refine ⟨hb, ?_⟩
    cases hmt : m.command.matchType with
    | regex => exact h7 hmt
    | string => exact h8 (hpat m.command hcmd hmt)
  have hpwF : List.Pairwise
      (fun a b => a.col ≤ b.col ∧ (a.col + a.length ≤ b.col ∨ b.col + b.length ≤ a.col))
      ((scan engine cmds text).filter (fun m => m.line == i)) := by
    have hsub := List.filter_sublist (p := fun m => m.line == i) (scan engine cmds text)
    have hpw := List.Pairwise.sublist hsub (scan_pairwise engine cmds text)
    refine hpw.imp_of_mem ?_
    intro a b ha hb h
    have ha' : a.line = i := by simpa using (List.mem_filter.mp ha).2
    have hb' : b.line = i := by simpa using (List.mem_filter.mp hb).2
    exact h (by rw [ha', hb'])
  have hmemS : ∀ m ∈ sortStable leCol
      ((scan engine cmds text).filter (fun m => m.line == i)),
      m ∈ (scan engine cmds text).filter (fun m => m.line == i) :=
    fun m hm => (sortStable_perm leCol _).mem_iff.mp hm
  have hdisjS : List.Pairwise
      (fun a b : Match => a.col + a.length ≤ b.col ∨ b.col + b.length ≤ a.col)
      (sortStable leCol ((scan engine cmds text).filter (fun m => m.line == i))) :=
    ((sortStable_perm leCol
      ((scan engine cmds text).filter (fun m => m.line == i))).pairwise_iff
      (fun h => Or.symm h)).mpr (hpwF.imp (fun h => h.2))
  have hsortS : List.Pairwise (fun a b : Match => a.col ≤ b.col)
      (sortStable leCol ((scan engine cmds text).filter (fun m => m.line == i))) :=
    (sortStable_pairwise leCol leCol_total leCol_trans
      ((scan engine cmds text).filter (fun m => m.line == i))).imp
      (fun h => by simpa [leCol] using h)
  have hchainS : List.Pairwise (fun a b : Match => a.col + a.length ≤ b.col)
      (sortStable leCol ((scan engine cmds text).filter (fun m => m.line == i))) := by
    refine (pairwise_conj hsortS hdisjS).imp_of_mem ?_
    intro a b _ hbm h
    have hblen := (hfacts b (hmemS b hbm)).2
    rcases h with ⟨hle, hd | hd⟩
    · exact hd
    · omega
  simp only [renderLine, getMatchesForLine]
  by_cases hE : (sortStable leCol
      ((scan engine cmds text).filter (fun m => m.line == i))).isEmpty = true
  · rw [if_pos hE]
    constructor
    · by_cases hL : L = []
      · simp [hL, Segment.text]
      · simp [List.isEmpty_iff, hL, Segment.text]
    · intro hL
      simp [List.isEmpty_iff, hL]
  · rw [if_neg hE]
    have hnonempty : sortStable leCol
        ((scan engine cmds text).filter (fun m => m.line == i)) ≠ [] := by
      intro h; rw [h] at hE; exact hE rfl
    rcases List.exists_mem_of_ne_nil _ hnonempty with ⟨m0, hm0⟩
    have hm0f := hfacts m0 (hmemS m0 hm0)
    have hLpos : 0 < L.length := by omega
    have hLne : ¬(L.isEmpty = true) := by
      simp only [List.isEmpty_iff]
      intro h
      rw [h] at hLpos
      simp at hLpos
    rw [if_neg hLne]
    have hjoin := renderSegs_texts L
      (sortStable leCol ((scan engine cmds text).filter (fun m => m.line == i))) 0
      (Nat.zero_le _) (fun m _ => Nat.zero_le _)
      (fun m hm => (hfacts m (hmemS m hm)).1) hchainS
    constructor
    · simpa using hjoin
    · intro hL
      rw [hL] at hLpos
      simp at hLpos

/-- Claim C1 witness: on the two-line text `"a test\ntest/ok"` with the
literal rule `"test"`, line 0 renders (around its match) back to itself. -/
theorem claim_C1_witness :
    ((renderLine ((splitLines (chars "a test\ntest/ok")).getD 0 []) 0
        (scan noRegexEngine [cmdTest] (chars "a test\ntest/ok"))).map
      Segment.text).flatten = (splitLines (chars "a test\ntest/ok")).getD 0 []
    ∧ ((splitLines (chars "a test\ntest/ok")).getD 0 [] = [] →
        renderLine ((splitLines (chars "a test\ntest/ok")).getD 0 []) 0
          (scan noRegexEngine [cmdTest] (chars "a test\ntest/ok"))
          = [Segment.placeholder]) :=
  claim_C1 noRegexEngine (fun _ _ _ h => absurd h (by simp [noRegexEngine]))
    [cmdTest]
    (fun c hc _ => by
      rw [List.mem_singleton.mp hc]
      decide)
    (chars "a test\ntest/ok") 0 (by decide)

end TrustQuery
